import Mathlib

/-!
# Scylla: `locator/simple_snitch.hh` and `sstables/sstables.hh`

A shallow embedding of the two headers and the properties checked against them.

Conventions of the embedding.

* A C++ member function that may write to `*this` is a Lean function that returns the
  new object next to its result; a `const` member function only returns its result.
* A pointer member (`std::unique_ptr`, `lw_shared_ptr`) is an `Option`; dereferencing
  a null pointer is the failure `error.null_dereference`.
* `unsigned long`, `uint64_t` and `size_t` values are natural numbers. No function
  embedded here does arithmetic on them, so no wrap-around is involved.
* Types and functions that are declared in other headers are parameters of the
  definitions that use them.
-/

namespace locator

section snitch

variable {inet_address : Type}

/-- The body of `simple_snitch::compare_endpoints` (simple_snitch.hh:56-72): the single
statement `return 0;`. The three references are read and never written. -/
def simple_snitch.compare_endpoints (_target _a1 _a2 : inet_address) : Int := 0

/-- The body of `simple_snitch::sort_by_proximity` (simple_snitch.hh:51-54) is empty.
`addresses` is passed by non-const reference, so the function is embedded as the map
from the vector before the call to the vector after it. -/
def simple_snitch.sort_by_proximity (_address : inet_address)
    (addresses : List inet_address) : List inet_address := addresses

/-- The body of `simple_snitch::get_rack` (simple_snitch.hh:43-45). -/
def simple_snitch.get_rack (_endpoint : inet_address) : String := "rack1"

/-- The body of `simple_snitch::get_datacenter` (simple_snitch.hh:47-49). -/
def simple_snitch.get_datacenter (_endpoint : inet_address) : String := "datacenter1"

end snitch

/-! ### A stable sort driven by a three-way comparator

This is the reference against which `sort_by_proximity` is compared: the elements are
taken from left to right and each one is put behind every element already placed that
does not compare greater than it. -/

section stable

variable {α : Type}

/-- Insert `x` into `l` in front of the first element that compares greater than `x`. -/
def stable_insert (cmp : α → α → Int) (x : α) : List α → List α
  | [] => [x]
  | y :: ys => if cmp y x ≤ 0 then y :: stable_insert cmp x ys else x :: y :: ys

/-- Stable insertion sort: `acc` holds the elements placed so far. -/
def stable_sort_from (cmp : α → α → Int) : List α → List α → List α
  | acc, [] => acc
  | acc, x :: xs => stable_sort_from cmp (stable_insert cmp x acc) xs

/-- Stable sort of `l` with the three-way comparator `cmp`. -/
def stable_sort (cmp : α → α → Int) (l : List α) : List α := stable_sort_from cmp [] l

end stable

end locator

namespace sstables

/-- The enumeration `sstable::component_type` (sstables.hh:103-113). -/
inductive component_type
  | Index
  | CompressionInfo
  | Data
  | TOC
  | Summary
  | Digest
  | CRC
  | Filter
  | Statistics
  deriving DecidableEq, Repr, Fintype

/-- The enumeration `sstable::version_types` (sstables.hh:114). -/
inductive version_types
  | la
  deriving DecidableEq, Repr, Fintype

/-- The enumeration `sstable::format_types` (sstables.hh:115). -/
inductive format_types
  | big
  deriving DecidableEq, Repr, Fintype

/-- The ways in which an embedded function fails to return.
`malformed_sstable_exception` is the exception class of sstables.hh:90-97;
`null_dereference` is the outcome of applying `->` to a null pointer. -/
inductive error
  | malformed_sstable_exception (msg : String)
  | null_dereference
  deriving DecidableEq, Repr

/-- A sequence of raw bytes (`bytes_view`, `key_view`). -/
abbrev bytes_view := List Nat

/-- Modelled from the spec: class `key` is only forward-declared in sstables.hh:88.
The spec speaks of the "raw key bytes" of a key, so a key is its byte sequence, and
the conversions `bytes_view(key)` and `key_view(key)` read that sequence. -/
structure key where
  _bytes : bytes_view
  deriving DecidableEq, Repr

/-- The interface `utils::i_filter` seen through `filter_ptr`: the one virtual member
function used in sstables.hh is `is_present`, taken here as a function of the key
bytes. -/
structure i_filter where
  is_present : bytes_view → Bool

/-- The part of `summary::header` that sstables.hh reads (sstables.hh:259). -/
structure summary_header where
  sampling_level : Nat
  deriving DecidableEq, Repr

/-- Modelled from the spec: the type `summary` is declared in another header. The
spec describes a summary as a "header containing the sampling level plus a sparse
sequence of (key, index-file offset) entries". -/
structure summary where
  header : summary_header
  entries : List (bytes_view × Nat)
  deriving DecidableEq, Repr

/-- Modelled from the spec: `dht::decorated_key` is declared in another header; the
spec calls it "a key plus its derived token". Member `_key` is the one read in
sstables.hh:286. -/
structure decorated_key (token partition_key : Type) where
  _token : token
  _key : partition_key

section handle

variable (compression statistics column_stats file : Type)

/-- The data members of class `sstable` (sstables.hh:205-219), in declaration order.
`compression`, `statistics`, `column_stats` and `file` are declared in other headers.
`_data_file_size` has no initializer, so it holds no value until it is assigned. -/
structure sstable where
  _components : Finset component_type
  _compression : compression
  _filter : Option i_filter
  _summary : summary
  _statistics : statistics
  _c_stats : column_stats
  _index_file : Option file
  _data_file : Option file
  _data_file_size : Option Nat
  _dir : String
  _generation : Nat
  _version : version_types
  _format : format_types

end handle

section methods

variable {compression statistics column_stats file : Type}

/-- The constructor `sstable::sstable(dir, generation, v, f)` (sstables.hh:117-122).
The four members of the initializer list take the arguments; every other member is
default-constructed: the component set is empty, the three pointers are null.
(Inside the namespace of the class the name `sstable` is the class itself, hence the
name `new`.) -/
def sstable.new [Inhabited compression] [Inhabited summary] [Inhabited statistics]
    [Inhabited column_stats] (dir : String) (generation : Nat) (v : version_types)
    (f : format_types) : sstable compression statistics column_stats file where
  _components := ∅
  _compression := default
  _filter := none
  _summary := default
  _statistics := default
  _c_stats := default
  _index_file := none
  _data_file := none
  _data_file_size := none
  _dir := dir
  _generation := generation
  _version := v
  _format := f

/-- The member `sstable::set_generation` (sstables.hh:166-168). -/
def sstable.set_generation (s : sstable compression statistics column_stats file)
    (generation : Nat) : sstable compression statistics column_stats file :=
  { s with _generation := generation }

/-- The member `sstable::generation` (sstables.hh:169-171), a `const` function. -/
def sstable.generation (s : sstable compression statistics column_stats file) : Nat :=
  s._generation

/-- The member `sstable::filter_has_key(const key&)` (sstables.hh:285):
`return _filter->is_present(bytes_view(key));`. -/
def sstable.filter_has_key (s : sstable compression statistics column_stats file)
    (k : key) : Except error (Bool × sstable compression statistics column_stats file) :=
  match s._filter with
  | none => .error .null_dereference
  | some f => .ok (f.is_present k._bytes, s)

/-- The member `sstable::filter_has_key(const schema&, const dht::decorated_key&)`
(sstables.hh:286): `return filter_has_key(key::from_partition_key(s, dk._key));`.
`key::from_partition_key` is declared in another header and is a parameter. -/
def sstable.filter_has_key_dk {schema token partition_key : Type}
    (from_partition_key : schema → partition_key → key)
    (s : sstable compression statistics column_stats file) (sch : schema)
    (dk : decorated_key token partition_key) :
    Except error (Bool × sstable compression statistics column_stats file) :=
  s.filter_has_key (from_partition_key sch dk._key)

/-- The member `sstable::read_indexes(uint64_t position)` (sstables.hh:258-260):
`return read_indexes(position, _summary.header.sampling_level);`. The two-argument
overload is only declared (sstables.hh:256); it is the parameter `read_indexes_q`,
which receives the handle, the position and the quantity. -/
def sstable.read_indexes {future_index_list : Type}
    (read_indexes_q : sstable compression statistics column_stats file → Nat → Nat →
      future_index_list)
    (s : sstable compression statistics column_stats file) (position : Nat) :
    future_index_list :=
  read_indexes_q s position s._summary.header.sampling_level

/-- Modelled from the spec: `sstable::has_component` is only declared
(sstables.hh:221). The spec: "`has_component` is a pure membership query against the
set populated at load/write time." The declaration is not `const`, so the handle
after the call is returned as well. -/
def sstable.has_component (s : sstable compression statistics column_stats file)
    (f : component_type) : Bool × sstable compression statistics column_stats file :=
  (decide (f ∈ s._components), s)

end methods

/-- Modelled from the spec: `sstable::version_from_sstring` is only declared
(sstables.hh:156). The spec: "given a version tag string, parse/validate it into a
`version_types` value (currently exactly one recognized tag) ... Unknown tags fail
with a format error — never silently default." The table `_version_string`
(sstables.hh:201) that names each version is a parameter. -/
def sstable.version_from_sstring (_version_string : version_types → String)
    (s : String) : Except error version_types :=
  if s = _version_string .la then .ok .la
  else .error (.malformed_sstable_exception s)

/-- Modelled from the spec: `sstable::format_from_sstring` is only declared
(sstables.hh:157). The spec: "same for format tags. Unknown tags fail with a format
error — never silently default." The table `_format_string` (sstables.hh:202) is a
parameter. -/
def sstable.format_from_sstring (_format_string : format_types → String)
    (s : String) : Except error format_types :=
  if s = _format_string .big then .ok .big
  else .error (.malformed_sstable_exception s)

/-- A handle as the constructor leaves it, with one-point types for the members
declared in other headers. Used where a property is evaluated on a concrete handle. -/
def fresh_handle : sstable Unit Unit Unit Unit :=
  @sstable.new Unit Unit Unit Unit ⟨()⟩ ⟨⟨⟨0⟩, []⟩⟩ ⟨()⟩ ⟨()⟩ "/var/lib/scylla/ks/cf" 1 .la .big

/-- A filter that answers from the length of the key, for concrete checks. -/
def even_length_filter : i_filter where
  is_present := fun b => b.length % 2 == 0

/-- A filter that answers "maybe present" for every key. -/
def always_present : i_filter where
  is_present := fun _ => true

/-- The handle `fresh_handle` after a filter was installed in it. -/
def with_filter (f : i_filter) : sstable Unit Unit Unit Unit :=
  { fresh_handle with _filter := some f }

/-- A handle that holds the filter `f` and differs from `with_filter f` in its
generation, its directory and its component set. -/
def other_with_filter (f : i_filter) : sstable Unit Unit Unit Unit :=
  { _components := {component_type.Filter, component_type.TOC}
    _compression := ()
    _filter := some f
    _summary := ⟨⟨128⟩, []⟩
    _statistics := ()
    _c_stats := ()
    _index_file := none
    _data_file := none
    _data_file_size := some 4096
    _dir := "/var/lib/scylla/ks/other"
    _generation := 7
    _version := .la
    _format := .big }

/-! ### The binary search over index and summary entries -/

/-- Modelled from the spec: `key::tri_compare` is declared in another header. The
spec: "when two entries share a token, compare raw key bytes". The comparison is the
lexicographic one on the byte sequences; the result is negative, zero or positive. -/
def tri_compare : bytes_view → bytes_view → Int
  | [], [] => 0
  | [], _ :: _ => -1
  | _ :: _, [] => 1
  | a :: as, b :: bs =>
    if a < b then -1 else if b < a then 1 else tri_compare as bs

section search

variable {token entry : Type} [LinearOrder token]

/-- Modelled from the spec: the order in which the entries of a table are kept, "by
token, then by raw key bytes as tiebreak". `get_token` is the partitioner's map from
key bytes to tokens, a parameter. -/
def sort_order_le (get_token : bytes_view → token) (a b : bytes_view) : Prop :=
  get_token a < get_token b ∨ (get_token a = get_token b ∧ tri_compare a b ≤ 0)

instance sort_order_le_decidable (get_token : bytes_view → token) (a b : bytes_view) :
    Decidable (sort_order_le get_token a b) := by
  unfold sort_order_le
  exact inferInstance

/-- Modelled from the spec: one probe of the search, "by token (then by raw key on
tie)". The token searched for is compared with the token of the probed key, and only
when the two are equal are the key bytes compared. -/
def probe (get_token : bytes_view → token) (sk : key) (tok : token)
    (mid_key : bytes_view) : Int :=
  if tok = get_token mid_key then tri_compare sk._bytes mid_key
  else if tok < get_token mid_key then -1 else 1

/-- Modelled from the spec: the loop of the three-argument `sstable::binary_search`,
which is only declared (sstables.hh:274-275). `low` and `high` bound the closed
interval still to be searched, `mid` and `result` are the position and the outcome of
the last probe. A probe that compares equal ends the search with its position. When
the interval is empty the search ends with a negative number that encodes the
position of the last probe, so that a caller can find "the first index entry ≥
min_token" after a miss. The first argument bounds the number of probes; `none` means
that the bound was reached. -/
def binary_search_loop (get_token : bytes_view → token) (get_key : entry → bytes_view)
    (entries : List entry) (sk : key) (tok : token) :
    Nat → Int → Int → Int → Int → Option Int
  | 0, _, _, _, _ => none
  | fuel + 1, low, high, mid, result =>
    if low ≤ high then
      let mid := low + (high - low) / 2
      match entries[mid.toNat]? with
      | none => none
      | some e =>
        let result := probe get_token sk tok (get_key e)
        if result > 0 then
          binary_search_loop get_token get_key entries sk tok fuel (mid + 1) high mid result
        else if result < 0 then
          binary_search_loop get_token get_key entries sk tok fuel low (mid - 1) mid result
        else some mid
    else some (-mid - (if result < 0 then 1 else 2))

/-- Modelled from the spec: the three-argument `sstable::binary_search(entries, sk,
token)`, only declared in sstables.hh:274-275. The search starts on the whole of
`entries`; one probe more than there are entries is always enough. -/
def sstable.binary_search_token (get_token : bytes_view → token)
    (get_key : entry → bytes_view) (entries : List entry) (sk : key) (tok : token) :
    Option Int :=
  binary_search_loop get_token get_key entries sk tok (entries.length + 1)
    0 ((entries.length : Int) - 1) entries.length (-1)

/-- The two-argument `sstable::binary_search(entries, sk)` (sstables.hh:277-280):
`return binary_search(entries, sk, dht::global_partitioner().get_token(key_view(sk)));`.
The global partitioner is the parameter `get_token`. -/
def sstable.binary_search (get_token : bytes_view → token) (get_key : entry → bytes_view)
    (entries : List entry) (sk : key) : Option Int :=
  sstable.binary_search_token get_token get_key entries sk (get_token sk._bytes)

end search

/-- A partitioner for concrete checks: the token of a key is its length. -/
def length_token (b : bytes_view) : Nat := b.length

/-- Seven keys in the sort order that `length_token` induces. -/
def sample_entries : List bytes_view := [[1], [3], [5], [7], [1, 1], [1, 2], [2, 0]]

end sstables

/-! ## Properties of `simple_snitch` -/

namespace locator

section snitch_properties

variable {inet_address : Type}

/-- C1: `simple_snitch::compare_endpoints` returns the constant 0 for every target,
`a1` and `a2`. In particular `compare_endpoints(A, A, B)` is 0 and not -1, whatever
`B` is, and it is the same value as `compare_endpoints(A, B, A)`: an endpoint that is
the target is not told apart from one that is not. -/
theorem compare_endpoints_constant_zero (target a1 a2 : inet_address) :
    simple_snitch.compare_endpoints target a1 a2 = 0
    ∧ simple_snitch.compare_endpoints target target a2 = 0
    ∧ simple_snitch.compare_endpoints target target a2 ≠ -1
    ∧ simple_snitch.compare_endpoints target target a2
        = simple_snitch.compare_endpoints target a2 target := by
  refine ⟨rfl, rfl, ?_, rfl⟩
  simp [simple_snitch.compare_endpoints]

end snitch_properties

section stable_properties

variable {α : Type}

theorem stable_insert_perm (cmp : α → α → Int) (x : α) (l : List α) :
    (stable_insert cmp x l).Perm (x :: l) := by
  induction l with
  | nil => simp [stable_insert]
  | cons y ys ih =>
    unfold stable_insert
    split
    · exact (List.Perm.cons y ih).trans (List.Perm.swap x y ys)
    · exact List.Perm.refl _

theorem stable_sort_from_perm (cmp : α → α → Int) (l acc : List α) :
    (stable_sort_from cmp acc l).Perm (acc ++ l) := by
  induction l generalizing acc with
  | nil => simp [stable_sort_from]
  | cons x xs ih =>
    unfold stable_sort_from
    refine (ih _).trans ?_
    refine (List.Perm.append_right xs (stable_insert_perm cmp x acc)).trans ?_
    simpa using (@List.perm_middle _ x acc xs).symm

/-- The reference sort returns a rearrangement of its input. -/
theorem stable_sort_perm (cmp : α → α → Int) (l : List α) :
    (stable_sort cmp l).Perm l := by
  simpa [stable_sort] using stable_sort_from_perm cmp l []

theorem stable_insert_sorted (cmp : α → α → Int)
    (total : ∀ a b, cmp a b ≤ 0 ∨ cmp b a ≤ 0)
    (trans : ∀ a b c, cmp a b ≤ 0 → cmp b c ≤ 0 → cmp a c ≤ 0)
    (x : α) (l : List α) (hl : l.Pairwise (fun a b => cmp a b ≤ 0)) :
    (stable_insert cmp x l).Pairwise (fun a b => cmp a b ≤ 0) := by
  induction l with
  | nil => simp [stable_insert]
  | cons y ys ih =>
    rw [List.pairwise_cons] at hl
    unfold stable_insert
    split
    · rename_i hyx
      rw [List.pairwise_cons]
      refine ⟨fun z hz => ?_, ih hl.2⟩
      have hz2 : z ∈ x :: ys := (stable_insert_perm cmp x ys).subset hz
      rcases List.mem_cons.mp hz2 with rfl | hz3
      · exact hyx
      · exact hl.1 z hz3
    · rename_i hyx
      have hxy : cmp x y ≤ 0 := (total x y).resolve_right hyx
      rw [List.pairwise_cons]
      refine ⟨fun z hz => ?_, List.pairwise_cons.mpr hl⟩
      rcases List.mem_cons.mp hz with rfl | hz3
      · exact hxy
      · exact trans x y z hxy (hl.1 z hz3)

theorem stable_sort_from_sorted (cmp : α → α → Int)
    (total : ∀ a b, cmp a b ≤ 0 ∨ cmp b a ≤ 0)
    (trans : ∀ a b c, cmp a b ≤ 0 → cmp b c ≤ 0 → cmp a c ≤ 0)
    (l acc : List α) (hacc : acc.Pairwise (fun a b => cmp a b ≤ 0)) :
    (stable_sort_from cmp acc l).Pairwise (fun a b => cmp a b ≤ 0) := by
  induction l generalizing acc with
  | nil => simpa [stable_sort_from] using hacc
  | cons x xs ih =>
    unfold stable_sort_from
    exact ih _ (stable_insert_sorted cmp total trans x acc hacc)

/-- The reference sort returns a list in ascending order, for every comparator that
is total and transitive. -/
theorem stable_sort_sorted (cmp : α → α → Int)
    (total : ∀ a b, cmp a b ≤ 0 ∨ cmp b a ≤ 0)
    (trans : ∀ a b c, cmp a b ≤ 0 → cmp b c ≤ 0 → cmp a c ≤ 0) (l : List α) :
    (stable_sort cmp l).Pairwise (fun a b => cmp a b ≤ 0) :=
  stable_sort_from_sorted cmp total trans l [] List.Pairwise.nil

/-- Inserting `x` splits the list in two: `x` lands in front of the first element
that compares greater than it. -/
theorem stable_insert_split (cmp : α → α → Int) (x : α) (l : List α) :
    ∃ l1 l2, l = l1 ++ l2 ∧ stable_insert cmp x l = l1 ++ x :: l2
      ∧ ∀ y, l2.head? = some y → ¬ cmp y x ≤ 0 := by
  induction l with
  | nil => exact ⟨[], [], rfl, rfl, by simp⟩
  | cons y ys ih =>
    by_cases hyx : cmp y x ≤ 0
    · obtain ⟨l1, l2, h1, h2, h3⟩ := ih
      refine ⟨y :: l1, l2, by simp [h1], ?_, h3⟩
      simp [stable_insert, hyx, h2]
    · refine ⟨[], y :: ys, rfl, by simp [stable_insert, hyx], ?_⟩
      intro z hz
      simp at hz
      rw [← hz]
      exact hyx

/-- Inserting `x` puts it behind every element already placed that compares equal to
it: on a class `p` of elements that compare equal to one another, the elements of
the class keep their order and `x`, when it is in the class, comes last. -/
theorem stable_insert_filter (cmp : α → α → Int)
    (trans : ∀ a b c, cmp a b ≤ 0 → cmp b c ≤ 0 → cmp a c ≤ 0)
    (p : α → Bool) (hp : ∀ a b, p a = true → p b = true → cmp a b ≤ 0)
    (x : α) (l : List α) (hl : l.Pairwise (fun a b => cmp a b ≤ 0)) :
    (stable_insert cmp x l).filter p = l.filter p ++ [x].filter p := by
  obtain ⟨l1, l2, h1, h2, h3⟩ := stable_insert_split cmp x l
  rw [h2, h1]
  by_cases hx : p x = true
  · have hl2 : l2.filter p = [] := by
      rw [List.filter_eq_nil_iff]
      intro z hz hpz
      cases l2 with
      | nil => simp at hz
      | cons y ys =>
        have hyx := h3 y rfl
        have hyz : cmp y z ≤ 0 := by
          rcases List.mem_cons.mp hz with rfl | hz2
          · exact hp _ _ hpz hpz
          · rw [h1] at hl
            exact (List.pairwise_cons.mp (List.pairwise_append.mp hl).2.1).1 z hz2
        exact hyx (trans y z x hyz (hp z x hpz hx))
    simp [List.filter_cons, hx, hl2]
  · simp [List.filter_cons, hx]

theorem stable_sort_from_filter (cmp : α → α → Int)
    (total : ∀ a b, cmp a b ≤ 0 ∨ cmp b a ≤ 0)
    (trans : ∀ a b c, cmp a b ≤ 0 → cmp b c ≤ 0 → cmp a c ≤ 0)
    (p : α → Bool) (hp : ∀ a b, p a = true → p b = true → cmp a b ≤ 0)
    (l acc : List α) (hacc : acc.Pairwise (fun a b => cmp a b ≤ 0)) :
    (stable_sort_from cmp acc l).filter p = acc.filter p ++ l.filter p := by
  induction l generalizing acc with
  | nil => simp [stable_sort_from]
  | cons x xs ih =>
    unfold stable_sort_from
    rw [ih _ (stable_insert_sorted cmp total trans x acc hacc),
      stable_insert_filter cmp trans p hp x acc hacc, List.append_assoc,
      ← List.filter_append]
    rfl

/-- The reference sort is stable: for every comparator that is total and transitive,
the elements of a class of elements that compare equal to one another come out in
the order in which they went in. -/
theorem stable_sort_stable (cmp : α → α → Int)
    (total : ∀ a b, cmp a b ≤ 0 ∨ cmp b a ≤ 0)
    (trans : ∀ a b c, cmp a b ≤ 0 → cmp b c ≤ 0 → cmp a c ≤ 0)
    (p : α → Bool) (hp : ∀ a b, p a = true → p b = true → cmp a b ≤ 0)
    (l : List α) : (stable_sort cmp l).filter p = l.filter p := by
  simpa [stable_sort] using
    stable_sort_from_filter cmp total trans p hp l [] List.Pairwise.nil

theorem stable_insert_all_equal (cmp : α → α → Int) (h : ∀ a b, cmp a b = 0)
    (x : α) (l : List α) : stable_insert cmp x l = l ++ [x] := by
  induction l with
  | nil => rfl
  | cons y ys ih => simp [stable_insert, h, ih]

theorem stable_sort_from_all_equal (cmp : α → α → Int) (h : ∀ a b, cmp a b = 0)
    (l acc : List α) : stable_sort_from cmp acc l = acc ++ l := by
  induction l generalizing acc with
  | nil => simp [stable_sort_from]
  | cons x xs ih => simp [stable_sort_from, ih, stable_insert_all_equal cmp h]

end stable_properties

/-- C6: `simple_snitch::sort_by_proximity` keeps the original order. For every address
and every list of addresses the list after the call is the list before it, and that
is what a stable sort with `compare_endpoints(address, ., .)` as comparator returns,
since all endpoints compare equal. -/
theorem sort_by_proximity_keeps_order {inet_address : Type} (address : inet_address)
    (addresses : List inet_address) :
    simple_snitch.sort_by_proximity address addresses = addresses
    ∧ simple_snitch.sort_by_proximity address addresses
        = stable_sort (simple_snitch.compare_endpoints address) addresses := by
  refine ⟨rfl, ?_⟩
  have h := stable_sort_from_all_equal (simple_snitch.compare_endpoints address)
    (fun _ _ => rfl) addresses []
  simpa [stable_sort, simple_snitch.sort_by_proximity] using h.symm

end locator

/-! ## Properties of the table handle -/

namespace sstables

section handle_properties

variable {compression statistics column_stats file : Type}

/-- C9: the generation of a handle round-trips. A handle constructed with
`(dir, g, v, f)` reports `generation() = g`; after `set_generation(g1)` it reports
`g1`, and after a further `set_generation(g2)` it reports `g2` (the last set wins);
`set_generation` changes no member other than `_generation`. -/
theorem generation_round_trip [Inhabited compression] [Inhabited summary]
    [Inhabited statistics] [Inhabited column_stats] (dir : String) (g : Nat)
    (v : version_types) (f : format_types)
    (s : sstable compression statistics column_stats file) (g1 g2 : Nat) :
    (sstable.new dir g v f : sstable compression statistics column_stats file).generation = g
    ∧ (s.set_generation g1).generation = g1
    ∧ ((s.set_generation g1).set_generation g2).generation = g2
    ∧ (s.set_generation g1)._dir = s._dir
    ∧ (s.set_generation g1)._version = s._version
    ∧ (s.set_generation g1)._format = s._format
    ∧ (s.set_generation g1)._components = s._components
    ∧ s.set_generation g1 = { s with _generation := g1 }
    ∧ (s.set_generation g1).set_generation s.generation = s :=
  ⟨rfl, rfl, rfl, rfl, rfl, rfl, rfl, rfl, rfl⟩

/-- C5: `has_component` is a pure membership query. For every handle and every
component kind `c` it answers true exactly when `c` is in the component set of the
handle, and the handle after the call is the handle before it. On a handle that was
only constructed it answers false, for each of the nine component kinds. -/
theorem has_component_pure_membership [Inhabited compression] [Inhabited summary]
    [Inhabited statistics] [Inhabited column_stats]
    (s : sstable compression statistics column_stats file) (c : component_type) :
    ((s.has_component c).1 = true ↔ c ∈ s._components)
    ∧ (s.has_component c).2 = s
    ∧ (∀ (dir : String) (g : Nat) (v : version_types) (f : format_types),
        ((sstable.new dir g v f :
          sstable compression statistics column_stats file).has_component c).1 = false)
    ∧ Fintype.card component_type = 9 := by
  refine ⟨?_, rfl, ?_, rfl⟩
  · simp [sstable.has_component]
  · intro dir g v f
    simp [sstable.has_component, sstable.new]

/-- C8: the one-argument `read_indexes(position)` is `read_indexes(position, q)` with
`q` the `sampling_level` stored in the header of the summary of the handle, whatever
the two-argument overload does; the request it passes on is for exactly that many
entries starting at `position`. -/
theorem read_indexes_uses_sampling_level {future_index_list : Type}
    (read_indexes_q : sstable compression statistics column_stats file → Nat → Nat →
      future_index_list)
    (s : sstable compression statistics column_stats file) (position : Nat) :
    sstable.read_indexes read_indexes_q s position
      = read_indexes_q s position s._summary.header.sampling_level
    ∧ sstable.read_indexes (fun _ p q => (p, q)) s position
      = (position, s._summary.header.sampling_level) :=
  ⟨rfl, rfl⟩

/-- C7: `filter_has_key` is pure. On a handle whose filter pointer holds the filter
`f`, `filter_has_key(key)` is `f.is_present` on the bytes of the key and the handle
is unchanged; the overload that takes a schema and a decorated key is
`filter_has_key` on the key built from the partition key of the decorated key; and a
second handle that holds the same filter gives the same answer for the same key,
whatever its other members are. -/
theorem filter_has_key_pure {schema token partition_key : Type}
    (from_partition_key : schema → partition_key → key)
    (s s2 : sstable compression statistics column_stats file) (f : i_filter) (k : key)
    (sch : schema) (dk : decorated_key token partition_key)
    (hs : s._filter = some f) (hs2 : s2._filter = some f) :
    s.filter_has_key k = .ok (f.is_present k._bytes, s)
    ∧ sstable.filter_has_key_dk from_partition_key s sch dk
        = s.filter_has_key (from_partition_key sch dk._key)
    ∧ sstable.filter_has_key_dk from_partition_key s sch dk
        = .ok (f.is_present (from_partition_key sch dk._key)._bytes, s)
    ∧ (s2.filter_has_key k).map Prod.fst = (s.filter_has_key k).map Prod.fst := by
  refine ⟨?_, rfl, ?_, ?_⟩
  · simp [sstable.filter_has_key, hs]
  · simp [sstable.filter_has_key_dk, sstable.filter_has_key, hs]
  · simp [sstable.filter_has_key, hs, hs2, Except.map]

/-- Witness for C7: `fresh_handle` with `even_length_filter` installed, and a second
handle with the same filter that differs from it in other members. -/
theorem filter_has_key_pure_witness :
    (with_filter even_length_filter)._filter = some even_length_filter
    ∧ (other_with_filter even_length_filter)._filter = some even_length_filter
    ∧ (with_filter even_length_filter).filter_has_key ⟨[107, 101, 121]⟩
        = .ok (false, with_filter even_length_filter)
    ∧ ((other_with_filter even_length_filter).filter_has_key ⟨[107, 101, 121]⟩).map Prod.fst
        = ((with_filter even_length_filter).filter_has_key ⟨[107, 101, 121]⟩).map Prod.fst :=
  have h := filter_has_key_pure (fun (_ : Unit) (pk : bytes_view) => (⟨pk⟩ : key))
    (with_filter even_length_filter) (other_with_filter even_length_filter)
    even_length_filter ⟨[107, 101, 121]⟩ ()
    (⟨(0 : Nat), [107, 101, 121]⟩ : decorated_key Nat bytes_view) rfl rfl
  ⟨rfl, rfl, h.1, h.2.2.2⟩

/-- C2, as stated, fails: on a handle that was only constructed the filter pointer
is null and `filter_has_key` dereferences it; no value, and so not `true`, is
returned. -/
theorem filter_has_key_without_filter_fails :
    fresh_handle._filter = none
    ∧ fresh_handle.filter_has_key ⟨[107, 101, 121]⟩ = .error .null_dereference
    ∧ ¬ ∃ s1, fresh_handle.filter_has_key ⟨[107, 101, 121]⟩ = .ok (true, s1) := by
  refine ⟨rfl, rfl, ?_⟩
  rintro ⟨s1, h⟩
  simp [sstable.filter_has_key, fresh_handle, sstable.new] at h

/-- C2, amended: on a handle whose filter pointer holds a filter that answers true
for every key, `filter_has_key` returns true for every key, does not fail and leaves
the handle unchanged. On a handle whose filter pointer is null the call returns no
value: it ends in a null dereference. -/
theorem filter_has_key_always_present
    (s : sstable compression statistics column_stats file) (f : i_filter) (k : key)
    (hs : s._filter = some f) (hall : ∀ b, f.is_present b = true) :
    s.filter_has_key k = .ok (true, s)
    ∧ ∀ s0 : sstable compression statistics column_stats file,
        s0._filter = none → s0.filter_has_key k = .error .null_dereference := by
  refine ⟨?_, ?_⟩
  · simp [sstable.filter_has_key, hs, hall]
  · intro s0 h0
    simp [sstable.filter_has_key, h0]

/-- Witness for the amended C2: `fresh_handle` with `always_present` installed. -/
theorem filter_has_key_always_present_witness :
    (with_filter always_present)._filter = some always_present
    ∧ (∀ b, always_present.is_present b = true)
    ∧ (with_filter always_present).filter_has_key ⟨[107, 101, 121]⟩
        = .ok (true, with_filter always_present) :=
  ⟨rfl, fun _ => rfl,
    (filter_has_key_always_present (with_filter always_present)
      always_present ⟨[107, 101, 121]⟩ rfl (fun _ => rfl)).1⟩

end handle_properties

/-- C4: each of the two tag parsers returns a value only for the single recognized
tag. `version_types` has exactly the value `la` and `format_types` exactly the value
`big`; `version_from_sstring` returns `la` when the string is the tag of `la` and
fails with a malformed-sstable (format) error for every other string, and
`format_from_sstring` does the same with `big`. No string is answered with a
default. -/
theorem tag_parsers_accept_only_known_tag (_version_string : version_types → String)
    (_format_string : format_types → String) (s : String) :
    (∀ v : version_types, v = .la) ∧ Fintype.card version_types = 1
    ∧ (∀ f : format_types, f = .big) ∧ Fintype.card format_types = 1
    ∧ (∀ v, sstable.version_from_sstring _version_string s = .ok v ↔
        (s = _version_string .la ∧ v = .la))
    ∧ (s ≠ _version_string .la →
        ∃ msg, sstable.version_from_sstring _version_string s
          = .error (.malformed_sstable_exception msg))
    ∧ (∀ f, sstable.format_from_sstring _format_string s = .ok f ↔
        (s = _format_string .big ∧ f = .big))
    ∧ (s ≠ _format_string .big →
        ∃ msg, sstable.format_from_sstring _format_string s
          = .error (.malformed_sstable_exception msg)) := by
  refine ⟨fun v => by cases v; rfl, rfl, fun f => by cases f; rfl, rfl, ?_, ?_, ?_, ?_⟩
  · intro v
    cases v
    by_cases h : s = _version_string .la <;> simp [sstable.version_from_sstring, h]
  · intro h
    exact ⟨s, by simp [sstable.version_from_sstring, h]⟩
  · intro f
    cases f
    by_cases h : s = _format_string .big <;> simp [sstable.format_from_sstring, h]
  · intro h
    exact ⟨s, by simp [sstable.format_from_sstring, h]⟩

/-- Witness for C4, with the tags "la" and "big": each parser accepts its tag and
rejects the other one. -/
theorem tag_parsers_accept_only_known_tag_witness :
    sstable.version_from_sstring (fun _ => "la") "la" = .ok .la
    ∧ sstable.format_from_sstring (fun _ => "big") "big" = .ok .big
    ∧ (∃ msg, sstable.version_from_sstring (fun _ => "la") "big"
        = .error (.malformed_sstable_exception msg))
    ∧ (∃ msg, sstable.format_from_sstring (fun _ => "big") "la"
        = .error (.malformed_sstable_exception msg)) := by
  have h1 := tag_parsers_accept_only_known_tag (fun _ => "la") (fun _ => "big") "la"
  have h2 := tag_parsers_accept_only_known_tag (fun _ => "la") (fun _ => "big") "big"
  exact ⟨(h1.2.2.2.2.1 .la).mpr ⟨rfl, rfl⟩, (h2.2.2.2.2.2.2.1 .big).mpr ⟨rfl, rfl⟩,
    h2.2.2.2.2.2.1 (by decide), h1.2.2.2.2.2.2.2 (by decide)⟩

end sstables

/-! ## Properties of the binary search -/

namespace sstables

theorem tri_compare_self (a : bytes_view) : tri_compare a a = 0 := by
  induction a with
  | nil => rfl
  | cons x xs ih => simp [tri_compare, ih]

theorem tri_compare_eq_zero (a b : bytes_view) (h : tri_compare a b = 0) : a = b := by
  induction a generalizing b with
  | nil =>
    cases b with
    | nil => rfl
    | cons y ys => simp [tri_compare] at h
  | cons x xs ih =>
    cases b with
    | nil => simp [tri_compare] at h
    | cons y ys =>
      unfold tri_compare at h
      split at h
      · simp at h
      · split at h
        · simp at h
        · have hxy : x = y := by omega
          rw [hxy, ih ys h]

theorem tri_compare_swap (a b : bytes_view) : tri_compare b a = - tri_compare a b := by
  induction a generalizing b with
  | nil =>
    cases b with
    | nil => rfl
    | cons y ys => rfl
  | cons x xs ih =>
    cases b with
    | nil => rfl
    | cons y ys =>
      rcases Nat.lt_trichotomy x y with h | h | h
      · have h2 : ¬ y < x := by omega
        simp [tri_compare, h, h2]
      · subst h
        simp [tri_compare, ih ys]
      · have h2 : ¬ x < y := by omega
        simp [tri_compare, h, h2]

section search_properties

variable {token entry : Type} [LinearOrder token]

theorem probe_eq_zero (get_token : bytes_view → token) (sk : key) (tok : token)
    (mid_key : bytes_view) (h : probe get_token sk tok mid_key = 0) :
    mid_key = sk._bytes := by
  unfold probe at h
  split at h
  · exact (tri_compare_eq_zero _ _ h).symm
  · split at h <;> simp at h

theorem probe_self (get_token : bytes_view → token) (sk : key) :
    probe get_token sk (get_token sk._bytes) sk._bytes = 0 := by
  simp [probe, tri_compare_self]

/-- A key that is not after the key searched for is not probed as greater. -/
theorem probe_nonpos_of_le (get_token : bytes_view → token) (sk : key) (b : bytes_view)
    (h : sort_order_le get_token sk._bytes b) :
    probe get_token sk (get_token sk._bytes) b ≤ 0 := by
  unfold probe
  rcases h with h | ⟨h1, h2⟩
  · rw [if_neg (ne_of_lt h), if_pos h]
    decide
  · rw [if_pos h1]
    exact h2

/-- A key that is not before the key searched for is not probed as smaller. -/
theorem probe_nonneg_of_ge (get_token : bytes_view → token) (sk : key) (b : bytes_view)
    (h : sort_order_le get_token b sk._bytes) :
    0 ≤ probe get_token sk (get_token sk._bytes) b := by
  unfold probe
  rcases h with h | ⟨h1, h2⟩
  · rw [if_neg (ne_of_gt h), if_neg (not_lt_of_gt h)]
    decide
  · rw [if_pos h1.symm, tri_compare_swap]
    omega

/-- In a list kept in the sort order, an entry at an earlier position is not after
an entry at a later position. -/
theorem sorted_entries_get (get_token : bytes_view → token) (get_key : entry → bytes_view)
    (entries : List entry)
    (hsorted : entries.Pairwise
      (fun a b => sort_order_le get_token (get_key a) (get_key b)))
    (i j : Nat) (a b : entry) (hi : entries[i]? = some a) (hj : entries[j]? = some b)
    (hij : i < j) : sort_order_le get_token (get_key a) (get_key b) := by
  obtain ⟨hi1, hi2⟩ := List.getElem?_eq_some.mp hi
  obtain ⟨hj1, hj2⟩ := List.getElem?_eq_some.mp hj
  have h := List.pairwise_iff_getElem.mp hsorted i j hi1 hj1 hij
  rw [hi2, hj2] at h
  exact h

/-- The loop returns, and what it returns is either negative or the position of an
entry whose key is the key searched for. -/
theorem binary_search_loop_sound (get_token : bytes_view → token)
    (get_key : entry → bytes_view) (entries : List entry) (sk : key) (tok : token) :
    ∀ (fuel : Nat) (low high mid result : Int), 0 ≤ low → high < entries.length →
      low ≤ high + 1 → high - low + 1 < fuel → 0 ≤ mid →
      ∃ r, binary_search_loop get_token get_key entries sk tok fuel low high mid result
          = some r
        ∧ (r < 0 ∨ (0 ≤ r ∧ ∃ e, entries[r.toNat]? = some e ∧ get_key e = sk._bytes)) := by
  intro fuel
  induction fuel with
  | zero =>
    intro low high mid result _ _ h3 h4 _
    exfalso
    simp at h4
    omega
  | succ fuel ih =>
    intro low high mid result h1 h2 h3 h4 h5
    have h4b : high - low + 1 < (fuel : Int) + 1 := by exact_mod_cast h4
    by_cases hle : low ≤ high
    · have hmid1 : low ≤ low + (high - low) / 2 := by omega
      have hmid2 : low + (high - low) / 2 ≤ high := by omega
      have hlt : (low + (high - low) / 2).toNat < entries.length := by omega
      have he : entries[(low + (high - low) / 2).toNat]?
          = some (entries[(low + (high - low) / 2).toNat]) :=
        List.getElem?_eq_getElem hlt
      rw [binary_search_loop]
      simp only [hle, if_true, he]
      split
      · exact ih _ _ _ _ (by omega) h2 (by omega) (by omega) (by omega)
      · split
        · exact ih _ _ _ _ h1 (by omega) (by omega) (by omega) (by omega)
        · rename_i hn1 hn2
          refine ⟨_, rfl, Or.inr ⟨by omega, _, he, ?_⟩⟩
          exact probe_eq_zero get_token sk tok _ (by omega)
    · rw [binary_search_loop]
      simp only [hle, if_false]
      refine ⟨_, rfl, Or.inl ?_⟩
      split <;> omega

/-- On entries kept in the sort order, with the key searched for at position `j`
inside the interval, the loop returns the position of an entry with that key. -/
theorem binary_search_loop_finds (get_token : bytes_view → token)
    (get_key : entry → bytes_view) (entries : List entry) (sk : key)
    (hsorted : entries.Pairwise
      (fun a b => sort_order_le get_token (get_key a) (get_key b)))
    (j : Nat) (ej : entry) (hj : entries[j]? = some ej) (hkey : get_key ej = sk._bytes) :
    ∀ (fuel : Nat) (low high mid result : Int), 0 ≤ low → high < entries.length →
      high - low + 1 < fuel → low ≤ j → (j : Int) ≤ high →
      ∃ i : Nat, binary_search_loop get_token get_key entries sk (get_token sk._bytes)
          fuel low high mid result = some (i : Int)
        ∧ ∃ e, entries[i]? = some e ∧ get_key e = sk._bytes := by
  intro fuel
  induction fuel with
  | zero =>
    intro low high mid result _ _ h4 h6 h7
    exfalso
    simp at h4
    omega
  | succ fuel ih =>
    intro low high mid result h1 h2 h4 h6 h7
    have h4b : high - low + 1 < (fuel : Int) + 1 := by exact_mod_cast h4
    have hle : low ≤ high := by omega
    have hmid1 : low ≤ low + (high - low) / 2 := by omega
    have hmid2 : low + (high - low) / 2 ≤ high := by omega
    have hlt : (low + (high - low) / 2).toNat < entries.length := by omega
    have he : entries[(low + (high - low) / 2).toNat]?
        = some (entries[(low + (high - low) / 2).toNat]) :=
      List.getElem?_eq_getElem hlt
    rw [binary_search_loop]
    simp only [hle, if_true, he]
    split
    · rename_i hpos
      refine ih _ _ _ _ (by omega) h2 (by omega) ?_ h7
      by_contra hcon
      have hjm : j ≤ (low + (high - low) / 2).toNat := by omega
      rcases Nat.lt_or_eq_of_le hjm with hlt2 | heq
      · have hso := sorted_entries_get get_token get_key entries hsorted _ _ _ _ hj he hlt2
        rw [hkey] at hso
        have := probe_nonpos_of_le get_token sk _ hso
        omega
      · rw [heq, he] at hj
        cases hj
        rw [hkey, probe_self] at hpos
        omega
    · split
      · rename_i hnpos hneg
        refine ih _ _ _ _ h1 (by omega) (by omega) h6 ?_
        by_contra hcon
        have hjm : (low + (high - low) / 2).toNat ≤ j := by omega
        rcases Nat.lt_or_eq_of_le hjm with hlt2 | heq
        · have hso := sorted_entries_get get_token get_key entries hsorted _ _ _ _ he hj hlt2
          rw [hkey] at hso
          have := probe_nonneg_of_ge get_token sk _ hso
          omega
        · rw [← heq, he] at hj
          cases hj
          rw [hkey, probe_self] at hneg
          omega
      · rename_i hn1 hn2
        refine ⟨(low + (high - low) / 2).toNat, ?_, _, he, ?_⟩
        · congr 1
          omega
        · exact probe_eq_zero get_token sk (get_token sk._bytes) _ (by omega)

/-- C3: for every list of entries kept in the sort order (by token, then by raw key
bytes) and every key `K`, `sstable::binary_search(entries, K)`, which searches with
the token the partitioner gives to `K`, returns; when `K` is the key of some entry it
returns a non-negative index `i` of an entry whose key is `K`, and when `K` is the key
of no entry it returns a negative value. -/
theorem binary_search_finds_present_keys (get_token : bytes_view → token)
    (get_key : entry → bytes_view) (entries : List entry) (K : key)
    (hsorted : entries.Pairwise
      (fun a b => sort_order_le get_token (get_key a) (get_key b))) :
    ((∃ e ∈ entries, get_key e = K._bytes) →
      ∃ i : Nat, sstable.binary_search get_token get_key entries K = some (i : Int)
        ∧ ∃ e, entries[i]? = some e ∧ get_key e = K._bytes)
    ∧ ((¬ ∃ e ∈ entries, get_key e = K._bytes) →
      ∃ r : Int, sstable.binary_search get_token get_key entries K = some r ∧ r < 0) := by
  refine ⟨?_, ?_⟩
  · rintro ⟨ej, hmem, hkey⟩
    obtain ⟨j, hj⟩ := List.mem_iff_getElem?.mp hmem
    have hjlt : j < entries.length := (List.getElem?_eq_some.mp hj).1
    exact binary_search_loop_finds get_token get_key entries K hsorted j ej hj hkey
      (entries.length + 1) 0 ((entries.length : Int) - 1) entries.length (-1)
      (le_refl _) (by omega) (by push_cast; omega) (by omega) (by omega)
  · intro hno
    obtain ⟨r, hr, hcase⟩ := binary_search_loop_sound get_token get_key entries K
      (get_token K._bytes) (entries.length + 1) 0 ((entries.length : Int) - 1)
      entries.length (-1) (le_refl _) (by omega) (by omega) (by push_cast; omega)
      (by omega)
    refine ⟨r, hr, ?_⟩
    rcases hcase with hneg | ⟨_, e, he, hkey⟩
    · exact hneg
    · exact absurd ⟨e, List.mem_iff_getElem?.mpr ⟨_, he⟩, hkey⟩ hno

/-- Witness for C3: seven keys in the sort order of `length_token`; the key `[1, 2]`
is found (at index 5) and the key `[4]`, which is absent, gives a negative value. -/
theorem binary_search_finds_present_keys_witness :
    sample_entries.Pairwise (fun a b => sort_order_le length_token (id a) (id b))
    ∧ (∃ i : Nat, sstable.binary_search length_token id sample_entries ⟨[1, 2]⟩
          = some (i : Int)
        ∧ ∃ e, sample_entries[i]? = some e ∧ id e = [1, 2])
    ∧ sstable.binary_search length_token id sample_entries ⟨[1, 2]⟩ = some 5
    ∧ (∃ r : Int, sstable.binary_search length_token id sample_entries ⟨[4]⟩ = some r
        ∧ r < 0)
    ∧ sstable.binary_search length_token id sample_entries ⟨[4]⟩ = some (-3) :=
  ⟨by decide,
    (binary_search_finds_present_keys length_token id sample_entries ⟨[1, 2]⟩
      (by decide)).1 ⟨[1, 2], by decide, rfl⟩,
    by decide,
    (binary_search_finds_present_keys length_token id sample_entries ⟨[4]⟩
      (by decide)).2 (by decide),
    by decide⟩

end search_properties

end sstables
